import Mathlib

/-!
Verification of the SFTA (symbolic finite tree automata) library sources.

The development embeds, as executable Lean functions, the parts of the code
the verified properties are about:

* `SFTA.CompactVariableAssignment` — the bit-packed three-valued variable
  assignment of `include/sfta/compact_variable_assignment.hh`.  The C++
  object stores an array `char vars_[NumberOfChars]`; we model this array
  as a `List Nat` whose entries are the (8-bit) character values, and each
  member function as a function on that list.  C++ exceptions are modelled
  by `Except String`.
* `SFTA.FakeFile` — the in-memory file helper of `src/fake_file.cc`.
* `SFTA.OrderedVector` — the sorted-vector set of
  `include/sfta/ordered_vector.hh`, modelled over natural-number keys.
* `SFTA.SpecMTBDD` — a model of the shared-MTBDD value read/write
  operations, built from the specification text (the concrete
  `CuddSharedMTBDD` implementation is not among the sources).
-/

namespace SFTA
namespace CompactVariableAssignment

/-- `ZERO = 0x01` from the `enum` of the class. -/
def ZERO : Nat := 0x01

/-- `ONE = 0x02` from the `enum` of the class. -/
def ONE : Nat := 0x02

/-- `DONT_CARE = 0x03` from the `enum` of the class. -/
def DONT_CARE : Nat := 0x03

/-- `BitsPerVariable = 2`. -/
def BitsPerVariable : Nat := 2

/-- `BitsInChar = 8`. -/
def BitsInChar : Nat := 8

/-- `DefaultMask = 0x03`. -/
def DefaultMask : Nat := 0x03

/-- `NumberOfChars = (VariablesCount*BitsPerVariable - 1) / BitsInChar + 1`,
as a function of the template parameter `VariablesCount`. -/
def NumberOfChars (VariablesCount : Nat) : Nat :=
  (VariablesCount * BitsPerVariable - 1) / BitsInChar + 1

/-- `getIndexOfChar`: index of the `char` that holds the value of the
variable at the given index. -/
def getIndexOfChar (index : Nat) : Nat :=
  (index * BitsPerVariable) / BitsInChar

/-- `getIndexInsideChar`: index of the first bit of the variable's block
inside its `char`. -/
def getIndexInsideChar (index : Nat) : Nat :=
  (index * BitsPerVariable) % BitsInChar

/-- `GetIthVariableValue`:
`return (vars_[getIndexOfChar(i)] >> getIndexInsideChar(i)) & DefaultMask;`. -/
def GetIthVariableValue (vars_ : List Nat) (i : Nat) : Nat :=
  ((vars_.getD (getIndexOfChar i) 0) >>> (getIndexInsideChar i)) &&& DefaultMask

/-- The mask/insert sequence shared by `SetIthVariableValue` and the
string constructor:

```
char mask = (DefaultMask << getIndexInsideChar(i)) ^ static_cast<char>(-1);
vars_[getIndexOfChar(i)] &= mask;
value <<= getIndexInsideChar(i);
vars_[getIndexOfChar(i)] |= value;
```

`static_cast<char>(-1)` has all eight bits set, so the mask's low byte is
`(DefaultMask <<< idx) ^^^ 255`; the shifted value is truncated to the
eight bits that fit in the `char`. -/
def setBits (vars_ : List Nat) (i value : Nat) : List Nat :=
  let mask := (DefaultMask <<< getIndexInsideChar i) ^^^ 255
  let c := (vars_.getD (getIndexOfChar i) 0) &&& mask
  let value2 := (value <<< getIndexInsideChar i) &&& 255
  vars_.set (getIndexOfChar i) (c ||| value2)

/-- `SetIthVariableValue(i, value)`: the `switch` admits exactly `ZERO`,
`ONE` and `DONT_CARE` and otherwise throws `"Invalid input value!"`;
then the two bits of variable `i` are replaced by `value`. -/
def SetIthVariableValue (vars_ : List Nat) (i value : Nat) :
    Except String (List Nat) :=
  if value = ZERO ∨ value = ONE ∨ value = DONT_CARE then
    .ok (setBits vars_ i value)
  else
    .error "Invalid input value!"

/-- The zero-initialised `char vars_[NumberOfChars]` array (`vars_()` in the
constructor initialiser lists). -/
def emptyVars (VariablesCount : Nat) : List Nat :=
  List.replicate (NumberOfChars VariablesCount) 0

/-- The loop `for (i = 0; i < Size(); ++i) SetIthVariableValue(i, f(i));`
shared by the default constructor and the `size_t` constructor; the
fuel argument counts the remaining iterations. -/
def constructAux (f : Nat → Nat) (vars_ : List Nat) (i : Nat) :
    Nat → Except String (List Nat)
  | 0 => .ok vars_
  | fuel+1 =>
    match SetIthVariableValue vars_ i (f i) with
    | .ok vs => constructAux f vs (i+1) fuel
    | .error e => .error e

/-- The default constructor: every variable is set to `DONT_CARE`. -/
def construct (VariablesCount : Nat) : Except String (List Nat) :=
  constructAux (fun _ => DONT_CARE) (emptyVars VariablesCount) 0 VariablesCount

/-- The `size_t` constructor.  The condition `(n & (1 << i) != 0)` parses,
by C++ operator precedence, as `n & ((1 << i) != 0)`: the comparison
`(1 << i) != 0` yields the `int` `1` (or `0`), which is then bitwise-anded
with `n`. -/
def constructFromSize (VariablesCount n : Nat) : Except String (List Nat) :=
  constructAux
    (fun i => if n &&& (if (1 <<< i) ≠ 0 then 1 else 0) ≠ 0 then ONE else ZERO)
    (emptyVars VariablesCount) 0 VariablesCount

/-- Loop body of the string constructor: `value[i]` is translated by the
`switch` into `ZERO`/`ONE`/`DONT_CARE` (throwing
`"Invalid input value!"` otherwise) and written with the same
mask/insert sequence as `SetIthVariableValue`. -/
def constructFromStringAux (vars_ : List Nat) (i : Nat) :
    List Char → Except String (List Nat)
  | [] => .ok vars_
  | ch :: rest =>
    if ch = '0' then constructFromStringAux (setBits vars_ i ZERO) (i+1) rest
    else if ch = '1' then constructFromStringAux (setBits vars_ i ONE) (i+1) rest
    else if ch = 'X' then
      constructFromStringAux (setBits vars_ i DONT_CARE) (i+1) rest
    else .error "Invalid input value!"

/-- The `std::string` constructor (the `assert` ties the string length to
`VariablesCount`, so the number of variables is the length of the input). -/
def constructFromString (value : List Char) : Except String (List Nat) :=
  constructFromStringAux (emptyVars value.length) 0 value

/-- `ToString()`: appends `'0'`/`'1'`/`'X'` for each variable in index
order, throwing `"Invalid bit value!"` on any other stored code. -/
def ToString (VariablesCount : Nat) (vars_ : List Nat) :
    Except String (List Char) :=
  (List.range VariablesCount).mapM (fun i =>
    if GetIthVariableValue vars_ i = ZERO then .ok '0'
    else if GetIthVariableValue vars_ i = ONE then .ok '1'
    else if GetIthVariableValue vars_ i = DONT_CARE then .ok 'X'
    else .error "Invalid bit value!")

/-- `operator++`: scan variables from index 0 upwards; a `ZERO` becomes
`ONE` and the loop stops, a `ONE` becomes `ZERO` and the scan continues,
anything else throws.  The fuel argument counts the remaining
iterations (`Size() - i`). -/
def incrementAux (vars_ : List Nat) (i : Nat) :
    Nat → Except String (List Nat)
  | 0 => .ok vars_
  | fuel+1 =>
    let value := GetIthVariableValue vars_ i
    if value = ZERO then SetIthVariableValue vars_ i ONE
    else if value = ONE then
      match SetIthVariableValue vars_ i ZERO with
      | .ok vs => incrementAux vs (i+1) fuel
      | .error e => .error e
    else .error "An attempt to increment assignment with invalid states"

/-- `operator++` on an assignment with `VariablesCount` variables. -/
def increment (VariablesCount : Nat) (vars_ : List Nat) :
    Except String (List Nat) :=
  incrementAux vars_ 0 VariablesCount

/-- One position of `operator<`'s nested `switch`: `.ok none` means
`continue`, `.ok (some b)` means `return b`. -/
def ltStep (l r : Nat) : Except String (Option Bool) :=
  if l = ZERO then
    if r = ZERO then .ok none
    else if r = ONE then .ok (some true)
    else if r = DONT_CARE then .ok (some true)
    else .error "Invalid variable assignment value"
  else if l = ONE then
    if r = ZERO then .ok (some false)
    else if r = ONE then .ok none
    else if r = DONT_CARE then .ok (some false)
    else .error "Invalid variable assignment value"
  else if l = DONT_CARE then
    if r = ZERO then .ok (some false)
    else if r = ONE then .ok (some true)
    else if r = DONT_CARE then .ok none
    else .error "Invalid variable assignment value"
  else .error "Invalid variable assignment value"

/-- The loop of `operator<`: iteration `i` compares the values at index
`Size() - i - 1`, so with fuel `k+1` the next index inspected is `k`. -/
def ltAux (lhs rhs : List Nat) : Nat → Except String Bool
  | 0 => .ok false
  | k+1 =>
    match ltStep (GetIthVariableValue lhs k) (GetIthVariableValue rhs k) with
    | .error e => .error e
    | .ok (some b) => .ok b
    | .ok none => ltAux lhs rhs k

/-- `operator<` on two assignments with `VariablesCount` variables. -/
def lessThan (VariablesCount : Nat) (lhs rhs : List Nat) :
    Except String Bool :=
  ltAux lhs rhs VariablesCount

/-! ### Bit-field lemmas for the packed representation -/

theorem testBit_three (k : Nat) : (3 : Nat).testBit k = decide (k < 2) := by
  simpa using Nat.testBit_two_pow_sub_one 2 k

theorem testBit_255 (k : Nat) : (255 : Nat).testBit k = decide (k < 8) := by
  simpa using Nat.testBit_two_pow_sub_one 8 k

theorem testBit_of_lt_four (v k : Nat) (hv : v < 4) (hk : 2 ≤ k) :
    v.testBit k = false := by
  apply Nat.testBit_lt_two_pow
  have h4 : (4 : Nat) = 2 ^ 2 := rfl
  have hle : (2 : Nat) ^ 2 ≤ 2 ^ k := Nat.pow_le_pow_right (by norm_num) hk
  omega

theorem getIndexInsideChar_eq (i : Nat) :
    getIndexInsideChar i = 2 * (i % 4) := by
  simp only [getIndexInsideChar, BitsPerVariable, BitsInChar]
  omega

theorem getIndexOfChar_eq (i : Nat) : getIndexOfChar i = i / 4 := by
  simp only [getIndexOfChar, BitsPerVariable, BitsInChar]
  omega

theorem getIndexOfChar_lt (i n : Nat) (h : i < n) :
    getIndexOfChar i < NumberOfChars n := by
  simp only [getIndexOfChar, NumberOfChars, BitsPerVariable, BitsInChar]
  omega

/-- Reading back the two bits just written into a `char` returns the
written value (for values that fit in two bits). -/
theorem charGetSet_same (p v c : Nat) (hp : p < 4) (hv : v < 4) :
    (((c &&& ((3 <<< (2*p)) ^^^ 255)) ||| ((v <<< (2*p)) &&& 255)) >>> (2*p))
        &&& 3 = v := by
  apply Nat.eq_of_testBit_eq
  intro k
  by_cases hk : k < 2
  · simp only [Nat.testBit_and, Nat.testBit_shiftRight, Nat.testBit_or,
      Nat.testBit_xor, Nat.testBit_shiftLeft, testBit_three, testBit_255]
    have h1 : 2*p ≤ 2*p + k := Nat.le_add_right _ _
    have h2 : 2*p + k - 2*p = k := by omega
    have h3 : 2*p + k < 8 := by omega
    simp [h1, h2, h3, hk]
  · have hr : v.testBit k = false := testBit_of_lt_four v k hv (by omega)
    have hl : ((((c &&& ((3 <<< (2*p)) ^^^ 255)) |||
        ((v <<< (2*p)) &&& 255)) >>> (2*p)) &&& 3).testBit k = false := by
      simp only [Nat.testBit_and, testBit_three]
      simp [hk]
    rw [hl, hr]

/-- Writing the two bits of one variable leaves every other two-bit field
of the same `char` unchanged. -/
theorem charGetSet_ne (p q v c : Nat) (hp : p < 4) (hq : q < 4)
    (hpq : p ≠ q) (hv : v < 4) :
    (((c &&& ((3 <<< (2*p)) ^^^ 255)) ||| ((v <<< (2*p)) &&& 255)) >>> (2*q))
        &&& 3 = (c >>> (2*q)) &&& 3 := by
  apply Nat.eq_of_testBit_eq
  intro k
  by_cases hk : k < 2
  · simp only [Nat.testBit_and, Nat.testBit_shiftRight, Nat.testBit_or,
      Nat.testBit_xor, Nat.testBit_shiftLeft, testBit_three, testBit_255]
    have h3 : 2*q + k < 8 := by omega
    by_cases hle : 2*p ≤ 2*q + k
    · -- then `q > p`, so the shifted bits of `3` and `v` at this
      -- position are beyond their two-bit width
      have h4 : ¬(2*q + k - 2*p < 2) := by omega
      have h5 : v.testBit (2*q + k - 2*p) = false :=
        testBit_of_lt_four v _ hv (by omega)
      simp [hle, h3, h4, h5, hk]
    · simp [hle, h3, hk]
  · simp only [Nat.testBit_and, testBit_three]
    simp [hk]

theorem GetIthVariableValue_setBits_same (vars_ : List Nat) (i v : Nat)
    (hlen : getIndexOfChar i < vars_.length) (hv : v < 4) :
    GetIthVariableValue (setBits vars_ i v) i = v := by
  have hinside : getIndexInsideChar i = 2 * (i % 4) := getIndexInsideChar_eq i
  have hp : i % 4 < 4 := Nat.mod_lt _ (by norm_num)
  simp only [GetIthVariableValue, setBits, DefaultMask, hinside]
  rw [List.getD_eq_getElem?_getD, List.getElem?_set_self hlen]
  simpa using charGetSet_same (i % 4) v (vars_.getD (getIndexOfChar i) 0) hp hv

theorem GetIthVariableValue_setBits_ne (vars_ : List Nat) (i j v : Nat)
    (hne : j ≠ i) (hv : v < 4) :
    GetIthVariableValue (setBits vars_ i v) j = GetIthVariableValue vars_ j := by
  by_cases hchar : getIndexOfChar j = getIndexOfChar i
  · -- same `char`, different two-bit field
    have hij4 : i / 4 = j / 4 := by
      have h1 := getIndexOfChar_eq i
      have h2 := getIndexOfChar_eq j
      omega
    have hmod : i % 4 ≠ j % 4 := by omega
    have hinside_i : getIndexInsideChar i = 2 * (i % 4) := getIndexInsideChar_eq i
    have hinside_j : getIndexInsideChar j = 2 * (j % 4) := getIndexInsideChar_eq j
    simp only [GetIthVariableValue, setBits, DefaultMask, hinside_i, hinside_j,
      hchar]
    by_cases hlen : getIndexOfChar i < vars_.length
    · rw [List.getD_eq_getElem?_getD, List.getElem?_set_self hlen,
        List.getD_eq_getElem?_getD]
      simpa using charGetSet_ne (i % 4) (j % 4) v
        (vars_.getD (getIndexOfChar i) 0)
        (Nat.mod_lt _ (by norm_num)) (Nat.mod_lt _ (by norm_num)) hmod hv
    · rw [List.set_eq_of_length_le (by omega)]
  · -- different `char`s: `List.set` does not touch the one read
    simp only [GetIthVariableValue, setBits]
    rw [List.getD_eq_getElem?_getD, List.getElem?_set_ne (by omega),
      List.getD_eq_getElem?_getD]

theorem length_setBits (vars_ : List Nat) (i v : Nat) :
    (setBits vars_ i v).length = vars_.length := by
  simp [setBits]

theorem GetIthVariableValue_lt (vars_ : List Nat) (i : Nat) :
    GetIthVariableValue vars_ i < 4 := by
  have h : GetIthVariableValue vars_ i ≤ 3 := Nat.and_le_right
  omega

/-! ### Behaviour of the constructors -/

/-- A value is one of the three codes admitted by the `switch` in
`SetIthVariableValue`. -/
def IsValidValue (v : Nat) : Prop := v = ZERO ∨ v = ONE ∨ v = DONT_CARE

instance (v : Nat) : Decidable (IsValidValue v) := by
  unfold IsValidValue; infer_instance

theorem IsValidValue.lt_four {v : Nat} (h : IsValidValue v) : v < 4 := by
  rcases h with h | h | h <;> simp [h, ZERO, ONE, DONT_CARE]

theorem SetIthVariableValue_valid (vars_ : List Nat) (i v : Nat)
    (h : IsValidValue v) :
    SetIthVariableValue vars_ i v = .ok (setBits vars_ i v) := by
  unfold SetIthVariableValue
  rw [if_pos (show v = ZERO ∨ v = ONE ∨ v = DONT_CARE from h)]

theorem SetIthVariableValue_invalid (vars_ : List Nat) (i v : Nat)
    (h : ¬ IsValidValue v) :
    SetIthVariableValue vars_ i v = .error "Invalid input value!" := by
  simp only [SetIthVariableValue, IsValidValue] at h ⊢
  rw [if_neg h]

/-- The constructor loop writes `f j` into every variable of its window and
touches nothing else. -/
theorem constructAux_spec (f : Nat → Nat) (hf : ∀ j, IsValidValue (f j)) :
    ∀ (fuel : Nat) (vars_ : List Nat) (i : Nat),
      ∃ vs, constructAux f vars_ i fuel = .ok vs ∧
        vs.length = vars_.length ∧
        (∀ j, i ≤ j → j < i + fuel → getIndexOfChar j < vars_.length →
          GetIthVariableValue vs j = f j) ∧
        (∀ j, j < i ∨ i + fuel ≤ j →
          GetIthVariableValue vs j = GetIthVariableValue vars_ j) := by
  intro fuel
  induction fuel with
  | zero =>
    intro vars_ i
    refine ⟨vars_, rfl, rfl, ?_, ?_⟩
    · intro j h1 h2 _
      exact absurd h2 (by omega)
    · intro j _
      rfl
  | succ fuel ih =>
    intro vars_ i
    obtain ⟨vs, hok, hlen, hin, hout⟩ := ih (setBits vars_ i (f i)) (i+1)
    refine ⟨vs, ?_, ?_, ?_, ?_⟩
    · simp only [constructAux, SetIthVariableValue_valid vars_ i (f i) (hf i)]
      exact hok
    · rw [hlen, length_setBits]
    · intro j h1 h2 hchar
      rcases Nat.eq_or_lt_of_le h1 with rfl | h1
      · rw [hout i (by omega),
          GetIthVariableValue_setBits_same vars_ i (f i) hchar (hf i).lt_four]
      · rw [hin j (by omega) (by omega) (by rw [length_setBits]; exact hchar)]
    · intro j hj
      rw [hout j (by omega),
        GetIthVariableValue_setBits_ne vars_ i j (f i) (by omega) (hf i).lt_four]

theorem length_emptyVars (n : Nat) :
    (emptyVars n).length = NumberOfChars n := by
  simp [emptyVars]

/-- The default constructor succeeds and sets every variable to
`DONT_CARE`. -/
theorem construct_spec (n : Nat) :
    ∃ vs, construct n = .ok vs ∧ vs.length = NumberOfChars n ∧
      ∀ i, i < n → GetIthVariableValue vs i = DONT_CARE := by
  obtain ⟨vs, hok, hlen, hin, _⟩ :=
    constructAux_spec (fun _ => DONT_CARE) (fun _ => Or.inr (Or.inr rfl))
      n (emptyVars n) 0
  refine ⟨vs, hok, by rw [hlen, length_emptyVars], fun i hi => ?_⟩
  exact hin i (Nat.zero_le _) (by omega)
    (by rw [length_emptyVars]; exact getIndexOfChar_lt i n hi)

/-- The `size_t` constructor succeeds and sets every variable to `ONE`
when `n` is odd and to `ZERO` when `n` is even. -/
theorem constructFromSize_spec (vc n : Nat) :
    ∃ vs, constructFromSize vc n = .ok vs ∧ vs.length = NumberOfChars vc ∧
      ∀ i, i < vc →
        GetIthVariableValue vs i = if n % 2 = 1 then ONE else ZERO := by
  have hval : ∀ i : Nat,
      (if n &&& (if (1 <<< i) ≠ 0 then 1 else 0) ≠ 0 then ONE else ZERO)
        = (if n % 2 = 1 then ONE else ZERO) := by
    intro i
    have hsh : (1 : Nat) <<< i ≠ 0 := by
      rw [Nat.shiftLeft_eq, one_mul]
      exact (Nat.two_pow_pos i).ne'
    rw [if_pos hsh, Nat.and_one_is_mod]
    by_cases h2 : n % 2 = 1
    · simp [h2]
    · have h0 : n % 2 = 0 := by omega
      simp [h0, h2]
  obtain ⟨vs, hok, hlen, hin, _⟩ :=
    constructAux_spec
      (fun i => if n &&& (if (1 <<< i) ≠ 0 then 1 else 0) ≠ 0 then ONE else ZERO)
      (fun i => by
        unfold IsValidValue
        dsimp only
        by_cases h : (n &&& if (1 : Nat) <<< i ≠ 0 then 1 else 0) ≠ 0
        · rw [if_pos h]
          exact Or.inr (Or.inl rfl)
        · rw [if_neg h]
          exact Or.inl rfl)
      vc (emptyVars vc) 0
  refine ⟨vs, hok, by rw [hlen, length_emptyVars], fun i hi => ?_⟩
  rw [hin i (Nat.zero_le _) (by omega)
    (by rw [length_emptyVars]; exact getIndexOfChar_lt i vc hi)]
  exact hval i

/-! ### The string constructor and `ToString` -/

/-- A character admitted by the string constructor's `switch`. -/
def IsValidChar (c : Char) : Prop := c = '0' ∨ c = '1' ∨ c = 'X'

instance (c : Char) : Decidable (IsValidChar c) := by
  unfold IsValidChar; infer_instance

/-- The value the string constructor's `switch` assigns to a character. -/
def charVal (c : Char) : Nat :=
  if c = '0' then ZERO else if c = '1' then ONE else DONT_CARE

/-- The character `ToString`'s `switch` emits for a stored value. -/
def valChar (v : Nat) : Char :=
  if v = ZERO then '0' else if v = ONE then '1' else 'X'

theorem charVal_valid (c : Char) : IsValidValue (charVal c) := by
  unfold charVal IsValidValue
  split
  · exact Or.inl rfl
  · split
    · exact Or.inr (Or.inl rfl)
    · exact Or.inr (Or.inr rfl)

theorem valChar_charVal (c : Char) (h : IsValidChar c) :
    valChar (charVal c) = c := by
  rcases h with h | h | h <;> subst h <;> rfl

/-- The string constructor's loop writes `charVal` of each character into
the corresponding variable, in index order. -/
theorem constructFromStringAux_spec :
    ∀ (s : List Char) (vars_ : List Nat) (i : Nat),
      (∀ c ∈ s, IsValidChar c) →
      ∃ vs, constructFromStringAux vars_ i s = .ok vs ∧
        vs.length = vars_.length ∧
        (∀ j, i ≤ j → j < i + s.length → getIndexOfChar j < vars_.length →
          GetIthVariableValue vs j = charVal (s.getD (j - i) '0')) ∧
        (∀ j, j < i ∨ i + s.length ≤ j →
          GetIthVariableValue vs j = GetIthVariableValue vars_ j) := by
  intro s
  induction s with
  | nil =>
    intro vars_ i _
    refine ⟨vars_, rfl, rfl, ?_, ?_⟩
    · intro j h1 h2 _
      exact absurd h2 (by simp; omega)
    · intro j _
      rfl
  | cons c rest ih =>
    intro vars_ i hvalid
    have hc : IsValidChar c := hvalid c (by simp)
    obtain ⟨vs, hok, hlen, hin, hout⟩ :=
      ih (setBits vars_ i (charVal c)) (i+1) (fun x hx => hvalid x (by simp [hx]))
    have hstep : constructFromStringAux vars_ i (c :: rest)
        = constructFromStringAux (setBits vars_ i (charVal c)) (i+1) rest := by
      rcases hc with h | h | h <;> subst h <;> rfl
    refine ⟨vs, hstep ▸ hok, by rw [hlen, length_setBits], ?_, ?_⟩
    · intro j h1 h2 hchar
      rcases Nat.eq_or_lt_of_le h1 with rfl | h1
      · rw [hout i (by omega),
          GetIthVariableValue_setBits_same vars_ i (charVal c) hchar
            (charVal_valid c).lt_four]
        simp
      · rw [hin j (by omega) (by simp at h2 ⊢; omega)
          (by rw [length_setBits]; exact hchar)]
        have hj : j - i = (j - (i+1)) + 1 := by omega
        rw [hj]
        simp
    · intro j hj
      have hj' : j < i ∨ i + rest.length + 1 ≤ j := by
        rcases hj with h | h
        · exact Or.inl h
        · simp at h
          omega
      rw [hout j (by omega),
        GetIthVariableValue_setBits_ne vars_ i j (charVal c) (by omega)
          (charVal_valid c).lt_four]

/-- If some character of the input string is invalid, the loop throws. -/
theorem constructFromStringAux_invalid :
    ∀ (s : List Char) (vars_ : List Nat) (i : Nat),
      (∃ c ∈ s, ¬ IsValidChar c) →
      constructFromStringAux vars_ i s = .error "Invalid input value!" := by
  intro s
  induction s with
  | nil =>
    intro vars_ i h
    simp at h
  | cons c rest ih =>
    intro vars_ i h
    by_cases hc : IsValidChar c
    · have hrest : ∃ x ∈ rest, ¬ IsValidChar x := by
        rcases h with ⟨x, hx, hxv⟩
        rcases List.mem_cons.mp hx with rfl | hx
        · exact absurd hc hxv
        · exact ⟨x, hx, hxv⟩
      have hstep : constructFromStringAux vars_ i (c :: rest)
          = constructFromStringAux (setBits vars_ i (charVal c)) (i+1) rest := by
        rcases hc with h' | h' | h' <;> subst h' <;> rfl
      rw [hstep]
      exact ih _ _ hrest
    · unfold IsValidChar at hc
      push_neg at hc
      obtain ⟨h0, h1, hX⟩ := hc
      simp only [constructFromStringAux, if_neg h0, if_neg h1, if_neg hX]

/-- A conversion of an `Except`-valued map over a list that never fails. -/
theorem mapM_ok {α β : Type} (f : α → Except String β) (g : α → β) :
    ∀ l : List α, (∀ x ∈ l, f x = .ok (g x)) → l.mapM f = .ok (l.map g) := by
  intro l
  induction l with
  | nil => intro _; rfl
  | cons x rest ih =>
    intro h
    rw [List.mapM_cons, h x (by simp), List.map_cons,
      ih (fun y hy => h y (by simp [hy]))]
    rfl

/-- `ToString` on a three-valued assignment returns the string of
`valChar`s of the variables, in index order. -/
theorem ToString_spec (n : Nat) (vars_ : List Nat)
    (h : ∀ i, i < n → IsValidValue (GetIthVariableValue vars_ i)) :
    ToString n vars_
      = .ok ((List.range n).map (fun i => valChar (GetIthVariableValue vars_ i))) := by
  apply mapM_ok
  intro i hi
  have hv := h i (List.mem_range.mp hi)
  rcases hv with hv | hv | hv <;>
    simp [hv, valChar, ZERO, ONE, DONT_CARE]

theorem getD_mem_of_lt {α : Type} (s : List α) (i : Nat) (d : α)
    (h : i < s.length) : s.getD i d ∈ s := by
  rw [List.getD_eq_getElem?_getD, List.getElem?_eq_getElem h, Option.getD_some]
  exact List.getElem_mem h

theorem map_range_getD {α : Type} (d : α) :
    ∀ s : List α, (List.range s.length).map (fun i => s.getD i d) = s := by
  intro s
  induction s with
  | nil => rfl
  | cons c rest ih =>
    rw [List.length_cons, List.range_succ_eq_map, List.map_cons, List.map_map]
    simp only [List.getD_cons_zero, Function.comp_def, List.getD_cons_succ]
    rw [ih]

/-- The string constructor on a valid string: success, and every variable
holds the code of its character. -/
theorem constructFromString_spec (s : List Char)
    (h : ∀ c ∈ s, IsValidChar c) :
    ∃ vs, constructFromString s = .ok vs ∧
      vs.length = NumberOfChars s.length ∧
      (∀ j, j < s.length →
        GetIthVariableValue vs j = charVal (s.getD j '0')) := by
  obtain ⟨vs, hok, hlen, hin, _⟩ :=
    constructFromStringAux_spec s (emptyVars s.length) 0 h
  refine ⟨vs, hok, by rw [hlen, length_emptyVars], fun j hj => ?_⟩
  rw [hin j (Nat.zero_le _) (by omega)
    (by rw [length_emptyVars]; exact getIndexOfChar_lt j s.length hj)]
  simp

/-- Round trip: `ToString` of the string constructor's result gives the
input string back. -/
theorem constructFromString_ToString (s : List Char)
    (h : ∀ c ∈ s, IsValidChar c) :
    ∃ vs, constructFromString s = .ok vs ∧
      ToString s.length vs = .ok s := by
  obtain ⟨vs, hok, hlen, hval⟩ := constructFromString_spec s h
  refine ⟨vs, hok, ?_⟩
  rw [ToString_spec s.length vs
    (fun i hi => by rw [hval i hi]; exact charVal_valid _)]
  congr 1
  calc (List.range s.length).map (fun i => valChar (GetIthVariableValue vs i))
      = (List.range s.length).map (fun i => s.getD i '0') := by
        apply List.map_congr_left
        intro i hi
        rw [hval i (List.mem_range.mp hi),
          valChar_charVal _ (h _ (getD_mem_of_lt s i '0' (List.mem_range.mp hi)))]
    _ = s := map_range_getD '0' s

/-- Success of the string constructor forces every character to be one of
`'0'`, `'1'`, `'X'`. -/
theorem constructFromStringAux_ok_valid :
    ∀ (s : List Char) (vars_ : List Nat) (i : Nat) (vs : List Nat),
      constructFromStringAux vars_ i s = .ok vs → ∀ c ∈ s, IsValidChar c := by
  intro s
  induction s with
  | nil =>
    intro vars_ i vs _ c hc
    simp at hc
  | cons c rest ih =>
    intro vars_ i vs hok x hx
    by_cases hc : IsValidChar c
    · rcases List.mem_cons.mp hx with rfl | hx
      · exact hc
      · have hstep : constructFromStringAux vars_ i (c :: rest)
            = constructFromStringAux (setBits vars_ i (charVal c)) (i+1) rest := by
          rcases hc with h' | h' | h' <;> subst h' <;> rfl
        rw [hstep] at hok
        exact ih _ _ _ hok x hx
    · rw [constructFromStringAux_invalid (c :: rest) vars_ i ⟨c, by simp, hc⟩]
        at hok
      exact absurd hok (by simp)

/-! ### `operator<` -/

instance exceptDecEq {ε α : Type} [DecidableEq ε] [DecidableEq α] :
    DecidableEq (Except ε α) := fun x y =>
  match x, y with
  | .ok a, .ok b =>
    if h : a = b then .isTrue (by rw [h])
    else .isFalse (fun hh => h (Except.ok.inj hh))
  | .error a, .error b =>
    if h : a = b then .isTrue (by rw [h])
    else .isFalse (fun hh => h (Except.error.inj hh))
  | .ok _, .error _ => .isFalse (fun hh => Except.noConfusion hh)
  | .error _, .ok _ => .isFalse (fun hh => Except.noConfusion hh)

theorem ltStep_none_iff : ∀ l < 4, ∀ r < 4,
    (ltStep l r = .ok none ↔ (l = r ∧ IsValidValue l)) := by decide

theorem ltStep_some_true_iff : ∀ l < 4, ∀ r < 4,
    (ltStep l r = .ok (some true) ↔
      ((l = ZERO ∧ (r = ONE ∨ r = DONT_CARE)) ∨ (l = DONT_CARE ∧ r = ONE))) := by
  decide

theorem ltStep_some_false_iff : ∀ l < 4, ∀ r < 4,
    (ltStep l r = .ok (some false) ↔
      ((l = ONE ∧ (r = ZERO ∨ r = DONT_CARE)) ∨ (l = DONT_CARE ∧ r = ZERO))) := by
  decide

theorem ltStep_some_trans (l r c : Nat) (hl : l < 4) (hr : r < 4) (hc : c < 4)
    (h1 : ltStep l r = .ok (some true)) (h2 : ltStep r c = .ok (some true)) :
    ltStep l c = .ok (some true) := by
  have h1' := (ltStep_some_true_iff l hl r hr).mp h1
  have h2' := (ltStep_some_true_iff r hr c hc).mp h2
  refine (ltStep_some_true_iff l hl c hc).mpr ?_
  simp only [ZERO, ONE, DONT_CARE] at h1' h2' ⊢
  omega

theorem ltStep_asym (l r : Nat) (hl : l < 4) (hr : r < 4) (b : Bool)
    (h : ltStep l r = .ok (some b)) : ltStep r l = .ok (some (!b)) := by
  cases b
  · have h' := (ltStep_some_false_iff l hl r hr).mp h
    refine (ltStep_some_true_iff r hr l hl).mpr ?_
    simp only [ZERO, ONE, DONT_CARE] at h' ⊢
    omega
  · have h' := (ltStep_some_true_iff l hl r hr).mp h
    refine (ltStep_some_false_iff r hr l hl).mpr ?_
    simp only [ZERO, ONE, DONT_CARE] at h' ⊢
    omega

theorem ltStep_total (l r : Nat) (hl : IsValidValue l) (hr : IsValidValue r)
    (hne : l ≠ r) :
    ltStep l r = .ok (some true) ∨ ltStep r l = .ok (some true) := by
  have hl4 := hl.lt_four
  have hr4 := hr.lt_four
  rcases hl with h1 | h1 | h1 <;> rcases hr with h2 | h2 | h2 <;>
    subst h1 <;> subst h2 <;>
    first
      | exact absurd rfl hne
      | exact Or.inl (by decide)
      | exact Or.inr (by decide)

theorem ltStep_valid_no_error (l r : Nat) (hl : IsValidValue l)
    (hr : IsValidValue r) :
    ltStep l r = .ok none ∨ ltStep l r = .ok (some true) ∨
      ltStep l r = .ok (some false) := by
  rcases hl with h1 | h1 | h1 <;> rcases hr with h2 | h2 | h2 <;>
    subst h1 <;> subst h2 <;>
    first
      | exact Or.inl (by decide)
      | exact Or.inr (Or.inl (by decide))
      | exact Or.inr (Or.inr (by decide))

theorem ltStep_self : ∀ l < 4,
    ltStep l l = .ok none ∨
    ltStep l l = .error "Invalid variable assignment value" := by decide

/-- `operator<` never returns `true` on two identical operands. -/
theorem ltAux_irrefl (lhs : List Nat) :
    ∀ k, ltAux lhs lhs k ≠ .ok true := by
  intro k
  induction k with
  | zero =>
    intro h
    exact absurd (Except.ok.inj h) (by simp)
  | succ k ih =>
    intro h
    unfold ltAux at h
    rcases ltStep_self (GetIthVariableValue lhs k)
      (GetIthVariableValue_lt lhs k) with hs | hs
    · rw [hs] at h
      exact ih h
    · rw [hs] at h
      exact Except.noConfusion h

/-- `operator<` is transitive on `true` results. -/
theorem ltAux_trans (a b c : List Nat) :
    ∀ k, ltAux a b k = .ok true → ltAux b c k = .ok true →
      ltAux a c k = .ok true := by
  intro k
  induction k with
  | zero =>
    intro h
    exact absurd (Except.ok.inj h) (by simp)
  | succ k ih =>
    intro hab hbc
    unfold ltAux at hab hbc ⊢
    set x := GetIthVariableValue a k with hx
    set y := GetIthVariableValue b k with hy
    set z := GetIthVariableValue c k with hz
    have hx4 : x < 4 := GetIthVariableValue_lt a k
    have hy4 : y < 4 := GetIthVariableValue_lt b k
    have hz4 : z < 4 := GetIthVariableValue_lt c k
    rcases h1 : ltStep x y with e | o
    · rw [h1] at hab
      exact Except.noConfusion hab
    · rcases h2 : ltStep y z with e | o'
      · rw [h2] at hbc
        exact Except.noConfusion hbc
      · rcases o with _ | b1
        · -- x = y: continue on the left comparison
          have hxy := (ltStep_none_iff x hx4 y hy4).mp h1
          rcases o' with _ | b2
          · -- y = z as well
            have hyz := (ltStep_none_iff y hy4 z hz4).mp h2
            have hxz : ltStep x z = .ok none := by
              refine (ltStep_none_iff x hx4 z hz4).mpr ⟨?_, hxy.2⟩
              rw [hxy.1, hyz.1]
            rw [h1] at hab
            rw [h2] at hbc
            rw [hxz]
            exact ih hab hbc
          · -- y < z decides; x = y so x < z decides the same way
            rw [h1] at hab
            rw [h2] at hbc
            have hb2 : b2 = true := by
              cases b2
              · exact absurd (Except.ok.inj hbc) (by simp)
              · rfl
            subst hb2
            have hxz : ltStep x z = .ok (some true) := by
              rw [hxy.1]
              exact h2
            rw [hxz]
        · -- x vs y decides
          rw [h1] at hab
          have hb1 : b1 = true := by
            cases b1
            · exact absurd (Except.ok.inj hab) (by simp)
            · rfl
          subst hb1
          rcases o' with _ | b2
          · -- y = z: x < y decides x vs z identically
            have hyz := (ltStep_none_iff y hy4 z hz4).mp h2
            have hxz : ltStep x z = .ok (some true) := by
              rw [← hyz.1]
              exact h1
            rw [hxz]
          · rw [h2] at hbc
            have hb2 : b2 = true := by
              cases b2
              · exact absurd (Except.ok.inj hbc) (by simp)
              · rfl
            subst hb2
            rw [ltStep_some_trans x y z hx4 hy4 hz4 h1 h2]

/-- `operator<` flips: a `true` result becomes `false` with the operands
swapped. -/
theorem ltAux_asym (a b : List Nat) :
    ∀ k, ltAux a b k = .ok true → ltAux b a k = .ok false := by
  intro k
  induction k with
  | zero =>
    intro h
    exact absurd (Except.ok.inj h) (by simp)
  | succ k ih =>
    intro hab
    unfold ltAux at hab ⊢
    have hx4 : GetIthVariableValue a k < 4 := GetIthVariableValue_lt a k
    have hy4 : GetIthVariableValue b k < 4 := GetIthVariableValue_lt b k
    rcases h1 : ltStep (GetIthVariableValue a k) (GetIthVariableValue b k)
      with e | o
    · rw [h1] at hab
      exact Except.noConfusion hab
    · rcases o with _ | b1
      · have hxy := (ltStep_none_iff _ hx4 _ hy4).mp h1
        have hyx : ltStep (GetIthVariableValue b k) (GetIthVariableValue a k)
            = .ok none := by
          refine (ltStep_none_iff _ hy4 _ hx4).mpr ⟨hxy.1.symm, ?_⟩
          rw [← hxy.1]
          exact hxy.2
        rw [h1] at hab
        rw [hyx]
        exact ih hab
      · rw [h1] at hab
        have hb1 : b1 = true := by
          cases b1
          · exact absurd (Except.ok.inj hab) (by simp)
          · rfl
        subst hb1
        rw [ltStep_asym _ _ hx4 hy4 true h1]
        rfl

/-- `operator<` on valid assignments that differ somewhere is total: one
direction returns `true`. -/
theorem ltAux_total (a b : List Nat) :
    ∀ k, (∀ j, j < k →
        IsValidValue (GetIthVariableValue a j) ∧
        IsValidValue (GetIthVariableValue b j)) →
      (∃ j, j < k ∧ GetIthVariableValue a j ≠ GetIthVariableValue b j) →
      ltAux a b k = .ok true ∨ ltAux b a k = .ok true := by
  intro k
  induction k with
  | zero =>
    intro _ hex
    obtain ⟨j, hj, _⟩ := hex
    exact absurd hj (by omega)
  | succ k ih =>
    intro hvalid hex
    have hxv := (hvalid k (by omega)).1
    have hyv := (hvalid k (by omega)).2
    unfold ltAux
    by_cases heq : GetIthVariableValue a k = GetIthVariableValue b k
    · have hnone : ltStep (GetIthVariableValue a k) (GetIthVariableValue b k)
          = .ok none :=
        (ltStep_none_iff _ hxv.lt_four _ hyv.lt_four).mpr ⟨heq, hxv⟩
      have hnone' : ltStep (GetIthVariableValue b k) (GetIthVariableValue a k)
          = .ok none :=
        (ltStep_none_iff _ hyv.lt_four _ hxv.lt_four).mpr ⟨heq.symm, hyv⟩
      rw [hnone, hnone']
      refine ih (fun j hj => hvalid j (by omega)) ?_
      obtain ⟨j, hj, hne⟩ := hex
      rcases Nat.lt_succ_iff_lt_or_eq.mp hj with hj | rfl
      · exact ⟨j, hj, hne⟩
      · exact absurd heq hne
    · rcases ltStep_total _ _ hxv hyv heq with h | h
      · rw [h]
        exact Or.inl rfl
      · rw [h]
        exact Or.inr rfl

/-! ### Lexicographic characterisation of `operator<` -/

/-- Rank of a character in the order realised by the code:
`'0' < 'X' < '1'`. -/
def charRankCode (c : Char) : Nat :=
  if c = '0' then 0 else if c = 'X' then 1 else 2

/-- Rank of a character in the order stated by the specification:
`'0' < '1' < 'X'` (`X` greater than `1`). -/
def charRankSpec (c : Char) : Nat :=
  if c = '0' then 0 else if c = '1' then 1 else 2

/-- Lexicographic strict comparison of equal-length strings under a
character ranking. -/
def lexLtBy (rank : Char → Nat) : List Char → List Char → Bool
  | a :: as, b :: bs =>
    if rank a < rank b then true
    else if rank b < rank a then false
    else lexLtBy rank as bs
  | _, _ => false

theorem ltStep_rank_lt : ∀ l < 4, ∀ r < 4,
    ((IsValidValue l ∧ IsValidValue r) →
      (ltStep l r = .ok (some true) ↔
        charRankCode (valChar l) < charRankCode (valChar r))) := by decide

theorem ltStep_rank_eq : ∀ l < 4, ∀ r < 4,
    ((IsValidValue l ∧ IsValidValue r) →
      (ltStep l r = .ok none ↔
        charRankCode (valChar l) = charRankCode (valChar r))) := by decide

/-- `operator<` computes exactly the lexicographic order of the *reversed*
texts under the ranking `'0' < 'X' < '1'`. -/
theorem ltAux_lex (a b : List Nat) :
    ∀ k, (∀ j, j < k →
        IsValidValue (GetIthVariableValue a j) ∧
        IsValidValue (GetIthVariableValue b j)) →
      ltAux a b k = .ok (lexLtBy charRankCode
        (((List.range k).map (fun i => valChar (GetIthVariableValue a i))).reverse)
        (((List.range k).map (fun i => valChar (GetIthVariableValue b i))).reverse)) := by
  intro k
  induction k with
  | zero =>
    intro _
    rfl
  | succ k ih =>
    intro hvalid
    have hxv := (hvalid k (by omega)).1
    have hyv := (hvalid k (by omega)).2
    rw [List.range_succ, List.map_append, List.map_append,
      List.reverse_append, List.reverse_append]
    simp only [List.map_cons, List.map_nil, List.reverse_cons, List.reverse_nil,
      List.nil_append, List.cons_append]
    unfold ltAux
    rcases ltStep_valid_no_error _ _ hxv hyv with h | h | h
    · have hr := (ltStep_rank_eq _ hxv.lt_four _ hyv.lt_four ⟨hxv, hyv⟩).mp h
      rw [h]
      unfold lexLtBy
      rw [if_neg (by omega), if_neg (by omega)]
      exact ih (fun j hj => hvalid j (by omega))
    · have hr := (ltStep_rank_lt _ hxv.lt_four _ hyv.lt_four ⟨hxv, hyv⟩).mp h
      rw [h]
      unfold lexLtBy
      rw [if_pos hr]
    · have hne : ltStep (GetIthVariableValue b k) (GetIthVariableValue a k)
          = .ok (some true) := by
        have := ltStep_asym _ _ hxv.lt_four hyv.lt_four false h
        simpa using this
      have hr := (ltStep_rank_lt _ hyv.lt_four _ hxv.lt_four ⟨hyv, hxv⟩).mp hne
      rw [h]
      unfold lexLtBy
      rw [if_neg (by omega), if_pos (by omega)]

/-! ### `operator++` -/

/-- The number encoded in binary by the window of `fuel` variables
starting at index `i`, variable `i` being the least significant digit and
a digit being `1` exactly when the variable is `ONE`. -/
def encodeFrom (vars_ : List Nat) (i : Nat) : Nat → Nat
  | 0 => 0
  | fuel+1 =>
    (if GetIthVariableValue vars_ i = ONE then 1 else 0)
      + 2 * encodeFrom vars_ (i+1) fuel

theorem encodeFrom_congr (a b : List Nat) :
    ∀ (fuel i : Nat),
      (∀ j, i ≤ j → j < i + fuel →
        GetIthVariableValue a j = GetIthVariableValue b j) →
      encodeFrom a i fuel = encodeFrom b i fuel := by
  intro fuel
  induction fuel with
  | zero =>
    intro i _
    rfl
  | succ fuel ih =>
    intro i h
    unfold encodeFrom
    rw [h i (by omega) (by omega), ih (i+1) (fun j h1 h2 => h j (by omega) (by omega))]

theorem encodeFrom_lt (vars_ : List Nat) :
    ∀ (fuel i : Nat), encodeFrom vars_ i fuel < 2 ^ fuel := by
  intro fuel
  induction fuel with
  | zero =>
    intro i
    simp [encodeFrom]
  | succ fuel ih =>
    intro i
    have h := ih (i+1)
    unfold encodeFrom
    rw [pow_succ]
    by_cases hone : GetIthVariableValue vars_ i = ONE <;> simp [hone] <;> omega

/-- `operator++` on a window of `ZERO`/`ONE` variables: it succeeds,
stays within the window, keeps the variables two-valued, and adds one to
the encoded number modulo `2 ^ fuel`. -/
theorem incrementAux_spec :
    ∀ (fuel : Nat) (vars_ : List Nat) (i : Nat),
      (∀ j, i ≤ j → j < i + fuel → getIndexOfChar j < vars_.length) →
      (∀ j, i ≤ j → j < i + fuel →
        GetIthVariableValue vars_ j = ZERO ∨ GetIthVariableValue vars_ j = ONE) →
      ∃ vs, incrementAux vars_ i fuel = .ok vs ∧
        vs.length = vars_.length ∧
        (∀ j, j < i ∨ i + fuel ≤ j →
          GetIthVariableValue vs j = GetIthVariableValue vars_ j) ∧
        (∀ j, i ≤ j → j < i + fuel →
          GetIthVariableValue vs j = ZERO ∨ GetIthVariableValue vs j = ONE) ∧
        encodeFrom vs i fuel = (encodeFrom vars_ i fuel + 1) % 2 ^ fuel := by
  intro fuel
  induction fuel with
  | zero =>
    intro vars_ i _ _
    exact ⟨vars_, rfl, rfl, fun j _ => rfl, fun j h1 h2 => absurd h2 (by omega),
      by simp [encodeFrom]⟩
  | succ fuel ih =>
    intro vars_ i hchar hval
    rcases hval i (by omega) (by omega) with hx | hx
    · -- current variable is ZERO: set it to ONE and stop
      refine ⟨setBits vars_ i ONE, ?_, length_setBits vars_ i ONE, ?_, ?_, ?_⟩
      · unfold incrementAux
        rw [hx]
        simp only [ZERO, ONE, DONT_CARE, if_pos rfl]
        exact SetIthVariableValue_valid vars_ i ONE (Or.inr (Or.inl rfl))
      · intro j hj
        exact GetIthVariableValue_setBits_ne vars_ i j ONE (by omega) (by decide)
      · intro j h1 h2
        rcases Nat.eq_or_lt_of_le h1 with rfl | h1
        · right
          exact GetIthVariableValue_setBits_same vars_ i ONE
            (hchar i (by omega) (by omega)) (by decide)
        · rw [GetIthVariableValue_setBits_ne vars_ i j ONE (by omega) (by decide)]
          exact hval j (by omega) h2
      · have hsame : GetIthVariableValue (setBits vars_ i ONE) i = ONE :=
          GetIthVariableValue_setBits_same vars_ i ONE
            (hchar i (by omega) (by omega)) (by decide)
        have htail : encodeFrom (setBits vars_ i ONE) (i+1) fuel
            = encodeFrom vars_ (i+1) fuel :=
          encodeFrom_congr _ _ fuel (i+1) (fun j h1 h2 =>
            GetIthVariableValue_setBits_ne vars_ i j ONE (by omega) (by decide))
        have hlt : encodeFrom vars_ (i+1) fuel < 2 ^ fuel :=
          encodeFrom_lt vars_ fuel (i+1)
        unfold encodeFrom
        rw [hsame, htail, hx]
        have hz : ¬ (ZERO = ONE) := by decide
        rw [if_pos rfl, if_neg hz]
        have hmod : 2 * encodeFrom vars_ (i+1) fuel + 1 < 2 ^ (fuel + 1) := by
          rw [pow_succ]
          omega
        rw [Nat.mod_eq_of_lt (by omega)]
        omega
    · -- current variable is ONE: set it to ZERO and carry
      have hzo : ¬ (ONE = ZERO) := by decide
      have hvars' := GetIthVariableValue_setBits_same vars_ i ZERO
        (hchar i (by omega) (by omega)) (by decide)
      obtain ⟨vs, hok, hlen, hout, hwin, henc⟩ :=
        ih (setBits vars_ i ZERO) (i+1)
          (fun j h1 h2 => by
            rw [length_setBits]
            exact hchar j (by omega) (by omega))
          (fun j h1 h2 => by
            rw [GetIthVariableValue_setBits_ne vars_ i j ZERO (by omega) (by decide)]
            exact hval j (by omega) (by omega))
      refine ⟨vs, ?_, by rw [hlen, length_setBits], ?_, ?_, ?_⟩
      · unfold incrementAux
        rw [hx]
        rw [if_neg (by decide), if_pos rfl,
          SetIthVariableValue_valid vars_ i ZERO (Or.inl rfl)]
        exact hok
      · intro j hj
        rw [hout j (by omega),
          GetIthVariableValue_setBits_ne vars_ i j ZERO (by omega) (by decide)]
      · intro j h1 h2
        rcases Nat.eq_or_lt_of_le h1 with rfl | h1
        · left
          rw [hout i (by omega)]
          exact hvars'
        · exact hwin j (by omega) (by omega)
      · have hvs_i : GetIthVariableValue vs i = ZERO := by
          rw [hout i (by omega)]
          exact hvars'
        have htail : encodeFrom (setBits vars_ i ZERO) (i+1) fuel
            = encodeFrom vars_ (i+1) fuel :=
          encodeFrom_congr _ _ fuel (i+1) (fun j h1 h2 =>
            GetIthVariableValue_setBits_ne vars_ i j ZERO (by omega) (by decide))
        unfold encodeFrom
        rw [hvs_i, hx, henc, htail, if_neg (by decide), if_pos rfl]
        have h2 : (2:Nat) ^ (fuel+1) = 2 * 2 ^ fuel := by
          rw [pow_succ]
          ring
        rw [h2]
        have harr : 1 + 2 * encodeFrom vars_ (i+1) fuel + 1
            = 2 * (encodeFrom vars_ (i+1) fuel + 1) := by ring
        rw [harr, Nat.mul_mod_mul_left]
        ring

/-- If the upward scan meets a variable that is neither `ZERO` nor `ONE`
before meeting a `ZERO`, `operator++` throws. -/
theorem incrementAux_invalid :
    ∀ (fuel : Nat) (vars_ : List Nat) (i j : Nat),
      i ≤ j → j < i + fuel →
      (∀ k, i ≤ k → k < j → GetIthVariableValue vars_ k = ONE) →
      ¬(GetIthVariableValue vars_ j = ZERO ∨ GetIthVariableValue vars_ j = ONE) →
      incrementAux vars_ i fuel
        = .error "An attempt to increment assignment with invalid states" := by
  intro fuel
  induction fuel with
  | zero =>
    intro vars_ i j h1 h2 _ _
    exact absurd h2 (by omega)
  | succ fuel ih =>
    intro vars_ i j h1 h2 hones hbad
    push_neg at hbad
    rcases Nat.eq_or_lt_of_le h1 with rfl | h1
    · unfold incrementAux
      rw [if_neg hbad.1, if_neg hbad.2]
    · have hone : GetIthVariableValue vars_ i = ONE := hones i (by omega) h1
      unfold incrementAux
      rw [hone, if_neg (by decide), if_pos rfl,
        SetIthVariableValue_valid vars_ i ZERO (Or.inl rfl)]
      refine ih (setBits vars_ i ZERO) (i+1) j (by omega) (by omega) ?_ ?_
      · intro k hk1 hk2
        rw [GetIthVariableValue_setBits_ne vars_ i k ZERO (by omega) (by decide)]
        exact hones k (by omega) hk2
      · rw [GetIthVariableValue_setBits_ne vars_ i j ZERO (by omega) (by decide)]
        push_neg
        exact hbad

/-- Whatever `operator++` does on success, every variable is either
untouched or rewritten to `ZERO`/`ONE`. -/
theorem incrementAux_preserves :
    ∀ (fuel : Nat) (vars_ : List Nat) (i : Nat) (vs : List Nat),
      (∀ j, i ≤ j → j < i + fuel → getIndexOfChar j < vars_.length) →
      incrementAux vars_ i fuel = .ok vs →
      vs.length = vars_.length ∧
      ∀ j, GetIthVariableValue vs j = GetIthVariableValue vars_ j ∨
        GetIthVariableValue vs j = ZERO ∨ GetIthVariableValue vs j = ONE := by
  intro fuel
  induction fuel with
  | zero =>
    intro vars_ i vs _ hok
    cases Except.ok.inj hok
    exact ⟨rfl, fun j => Or.inl rfl⟩
  | succ fuel ih =>
    intro vars_ i vs hchar hok
    unfold incrementAux at hok
    by_cases hx : GetIthVariableValue vars_ i = ZERO
    · rw [if_pos hx,
        SetIthVariableValue_valid vars_ i ONE (Or.inr (Or.inl rfl))] at hok
      cases Except.ok.inj hok
      refine ⟨length_setBits vars_ i ONE, fun j => ?_⟩
      by_cases hj : j = i
      · subst hj
        by_cases hb : getIndexOfChar j < vars_.length
        · right
          right
          exact GetIthVariableValue_setBits_same vars_ j ONE hb (by decide)
        · left
          unfold GetIthVariableValue setBits
          rw [List.set_eq_of_length_le (by omega)]
      · left
        exact GetIthVariableValue_setBits_ne vars_ i j ONE hj (by decide)
    · rw [if_neg hx] at hok
      by_cases hx1 : GetIthVariableValue vars_ i = ONE
      · rw [if_pos hx1,
          SetIthVariableValue_valid vars_ i ZERO (Or.inl rfl)] at hok
        obtain ⟨hlen, hj⟩ := ih (setBits vars_ i ZERO) (i+1) vs
          (fun j h1 h2 => by
            rw [length_setBits]
            exact hchar j (by omega) (by omega))
          hok
        refine ⟨by rw [hlen, length_setBits], fun j => ?_⟩
        rcases hj j with h | h
        · by_cases hij : j = i
          · subst hij
            by_cases hb : getIndexOfChar j < vars_.length
            · right
              left
              rw [h]
              exact GetIthVariableValue_setBits_same vars_ j ZERO hb (by decide)
            · left
              rw [h]
              unfold GetIthVariableValue setBits
              rw [List.set_eq_of_length_le (by omega)]
          · left
            rw [h]
            exact GetIthVariableValue_setBits_ne vars_ i j ZERO hij (by decide)
        · right
          exact h
      · rw [if_neg hx1] at hok
        exact Except.noConfusion hok

/-- The number an all-`ZERO`/`ONE` assignment encodes: the `i`-th binary
digit is `1` exactly when variable `i` is `ONE` (variable `0` least
significant). -/
def encode (n : Nat) (vars_ : List Nat) : Nat :=
  ∑ i ∈ Finset.range n, (if GetIthVariableValue vars_ i = ONE then 2 ^ i else 0)

theorem encodeFrom_eq_sum (vars_ : List Nat) :
    ∀ (fuel i : Nat), encodeFrom vars_ i fuel
      = ∑ k ∈ Finset.range fuel,
          (if GetIthVariableValue vars_ (i + k) = ONE then 2 ^ k else 0) := by
  intro fuel
  induction fuel with
  | zero =>
    intro i
    simp [encodeFrom]
  | succ fuel ih =>
    intro i
    unfold encodeFrom
    rw [Finset.sum_range_succ', ih (i+1), Finset.mul_sum]
    have hterm : ∀ k, 2 * (if GetIthVariableValue vars_ (i + 1 + k) = ONE
          then 2 ^ k else 0)
        = (if GetIthVariableValue vars_ (i + (k + 1)) = ONE
          then 2 ^ (k + 1) else 0) := by
      intro k
      have harg : i + 1 + k = i + (k + 1) := by omega
      rw [harg]
      split
      · rw [pow_succ]
        ring
      · ring
    rw [Finset.sum_congr rfl (fun k _ => hterm k)]
    have h0 : (if GetIthVariableValue vars_ (i + 0) = ONE then 2 ^ 0 else 0)
        = (if GetIthVariableValue vars_ i = ONE then 1 else 0) := by
      rw [Nat.add_zero, pow_zero]
    rw [h0]
    omega

theorem encode_eq_encodeFrom (n : Nat) (vars_ : List Nat) :
    encode n vars_ = encodeFrom vars_ 0 n := by
  rw [encode, encodeFrom_eq_sum vars_ n 0]
  exact Finset.sum_congr rfl (fun k _ => by rw [Nat.zero_add])

/-- All variables are in the three-valued domain. -/
def ThreeValued (n : Nat) (vars_ : List Nat) : Prop :=
  ∀ i, i < n → IsValidValue (GetIthVariableValue vars_ i)

instance (n : Nat) (vars_ : List Nat) : Decidable (ThreeValued n vars_) := by
  unfold ThreeValued
  infer_instance

end CompactVariableAssignment

/-! ## `FakeFile` (`src/fake_file.cc`) -/

namespace FakeFile

/-- The data members of `FakeFile` that drive its control flow, plus
whether the buffer pointer is null (`ptrBuffer_`). -/
structure State where
  hasBeenOpened_ : Bool
  isClosed_ : Bool
  writeMode_ : Bool
  ptrBufferNull : Bool

/-- The `FakeFile()` constructor. -/
def init : State :=
  ⟨false, false, false, true⟩

/-- The destructor `~FakeFile()`.  The outcome of the C library call
`fclose(ptrFile_)` is an input (`fcloseFails`); a thrown
`std::runtime_error` is an `error` result. -/
def destructor (s : State) (fcloseFails : Bool) : Except String Unit :=
  if s.hasBeenOpened_ = false then .ok ()
  else if s.isClosed_ = false then
    if fcloseFails then .error "Could not close file"
    else .ok ()
  else .ok ()

end FakeFile

/-! ## Shared-MTBDD value read/write

Modelled from the spec: the concrete `CuddSharedMTBDD` implementation of
`AbstractSharedMTBDD::SetValue`/`GetValue` is not among the sources (the
repository only carries the abstract interface
`include/sfta/abstract_shared_mtbdd.hh` and its unit tests), so the
operations below follow §4.4 of the specification text: an MTBDD
represents a function from Boolean vectors to values, a freshly created
root represents the constant background value, `set_value` replaces the
value of **all** paths consistent with the assignment, and `get_value`
returns all terminals reachable under the partial assignment,
deduplicated. -/

namespace SpecMTBDD

/-- A three-valued assignment entry: `0`, `1` or `X` (don't care). -/
inductive VarValue where
  | zero : VarValue
  | one : VarValue
  | dontCare : VarValue
deriving DecidableEq

/-- Modelled from the spec: a (shared) MTBDD with `Variables` variables
denotes a total function from Boolean vectors to leaf values. -/
def MTBDD (V : Type) : Type := List Bool → V

/-- Modelled from the spec: `create_root` — "An unmodified freshly-created
root points to the background node", i.e. it denotes the constant
background function. -/
def CreateRoot (V : Type) (background : V) : MTBDD V := fun _ => background

/-- Whether a total Boolean vector is consistent with a three-valued
assignment (a don't-care admits both values). -/
def consistentB : List VarValue → List Bool → Bool
  | [], [] => true
  | v :: vs, b :: bs =>
    (match v with
      | .zero => !b
      | .one => b
      | .dontCare => true) && consistentB vs bs
  | _, _ => false

/-- Modelled from the spec: `set_value(root, assignment, v)` — "replaces
the value reached by `assignment` with `v`.  Don't-cares in the
assignment mean: replace **all** paths consistent with the
assignment." -/
def SetValue {V : Type} (m : MTBDD V) (asgn : List VarValue) (v : V) :
    MTBDD V :=
  fun b => if consistentB asgn b then v else m b

/-- All total Boolean vectors consistent with a three-valued
assignment. -/
def completions : List VarValue → List (List Bool)
  | [] => [[]]
  | v :: vs =>
    (match v with
      | .zero => [false]
      | .one => [true]
      | .dontCare => [false, true]).flatMap
      (fun b => (completions vs).map (fun bs => b :: bs))

/-- Modelled from the spec: `get_value(root, assignment)` — "If the
assignment contains don't-care values for a variable, return *all*
terminals reachable under the partial assignment, deduplicated". -/
def GetValue {V : Type} [DecidableEq V] (m : MTBDD V)
    (asgn : List VarValue) : List V :=
  ((completions asgn).map m).dedup

/-- The unique completion of an assignment without don't-cares. -/
def onlyCompletion : List VarValue → List Bool :=
  List.map (fun v => match v with
    | .one => true
    | _ => false)

theorem completions_no_dontCare (asgn : List VarValue)
    (h : ∀ x ∈ asgn, x ≠ VarValue.dontCare) :
    completions asgn = [onlyCompletion asgn] := by
  induction asgn with
  | nil => rfl
  | cons v vs ih =>
    have hv : v ≠ VarValue.dontCare := h v (by simp)
    have htail := ih (fun x hx => h x (by simp [hx]))
    cases v
    · simp [completions, htail, onlyCompletion]
    · simp [completions, htail, onlyCompletion]
    · exact absurd rfl hv

theorem consistentB_onlyCompletion (asgn : List VarValue) :
    consistentB asgn (onlyCompletion asgn) = true := by
  induction asgn with
  | nil => rfl
  | cons v vs ih =>
    cases v <;> simp [consistentB, onlyCompletion] at ih ⊢ <;> exact ih

end SpecMTBDD

/-! ## `OrderedVector` (`include/sfta/ordered_vector.hh`)

The class is a template over an ordered key type; the model instantiates
it at natural-number keys.  The member `vec_` is the underlying
`std::vector`. -/

namespace OrderedVector

/-- `vectorIsSorted()`: scan adjacent pairs, failing on
`*(itVec - 1) >= *itVec`. -/
def vectorIsSorted : List Nat → Bool
  | a :: b :: rest => if b ≤ a then false else vectorIsSorted (b :: rest)
  | _ => true

/-- `std::unique` followed by `resize`: keep the first element of every
run of equal adjacent elements. -/
def uniqueAdj : List Nat → List Nat
  | a :: b :: rest => if a = b then uniqueAdj (a :: rest) else a :: uniqueAdj (b :: rest)
  | l => l
termination_by l => l.length

/-- The `OrderedVector(const VectorType& vec)` constructor: `std::sort`,
then remove duplicates. -/
def fromVector (vec : List Nat) : List Nat :=
  uniqueAdj (vec.insertionSort (· ≤ ·))

/-- The binary search of `insert`: returns `none` when an occurrence of
`x` was found (the code `return`s without inserting), and `some first`
with the final value of `first` otherwise. -/
def insertSearch (vec : List Nat) (x : Nat) (first last : Nat) : Option Nat :=
  if h : first < last then
    if vec.getD (first + (last - first) / 2) 0 = x then none
    else if vec.getD (first + (last - first) / 2) 0 < x then
      insertSearch vec x (first + (last - first) / 2 + 1) last
    else
      insertSearch vec x first (first + (last - first) / 2)
  else some first
termination_by last - first
decreasing_by
  all_goals
    have hd := Nat.div_lt_self (show 0 < last - first by omega)
      (show 1 < 2 by norm_num)
    omega

/-- `insert(x)`: binary search over the whole vector; if not found,
`push_back` a dummy, shift the elements after the insertion point one
slot to the right and overwrite the slot with `x`. -/
def insert (vec : List Nat) (x : Nat) : List Nat :=
  match insertSearch vec x 0 vec.length with
  | none => vec
  | some first => vec.take first ++ x :: vec.drop first

/-- `clear()`. -/
def clear (vec : List Nat) : List Nat :=
  (fun _ => ([] : List Nat)) vec

/-- `Erase(position)`: `vec_.erase(vec_.begin() + position)`. -/
def Erase (vec : List Nat) (position : Nat) : List Nat :=
  vec.eraseIdx position

/-- The merge loop of `Union`. -/
def unionMerge : List Nat → List Nat → List Nat
  | [], rhs => rhs
  | lhs, [] => lhs
  | l :: ls, r :: rs =>
    if l < r then l :: unionMerge ls (r :: rs)
    else if r < l then r :: unionMerge (l :: ls) rs
    else r :: unionMerge ls rs
termination_by lhs rhs => lhs.length + rhs.length

/-- `Union(rhs)`: merge the two vectors, then run them through the
`OrderedVector(const VectorType&)` constructor. -/
def Union (lhs rhs : List Nat) : List Nat :=
  fromVector (unionMerge lhs rhs)

/-! ### Sortedness infrastructure -/

theorem uniqueAdj_nil : uniqueAdj [] = [] := by
  rw [uniqueAdj]
  simp

theorem uniqueAdj_singleton (a : Nat) : uniqueAdj [a] = [a] := by
  rw [uniqueAdj]
  simp

theorem uniqueAdj_cons_cons (a b : Nat) (rest : List Nat) :
    uniqueAdj (a :: b :: rest)
      = if a = b then uniqueAdj (a :: rest) else a :: uniqueAdj (b :: rest) := by
  rw [uniqueAdj]

theorem unionMerge_nil_left (rhs : List Nat) : unionMerge [] rhs = rhs := by
  rw [unionMerge]

theorem unionMerge_cons_nil (a : Nat) (as : List Nat) :
    unionMerge (a :: as) [] = a :: as := by
  rw [unionMerge]
  simp

theorem unionMerge_cons_cons (a b : Nat) (as bs : List Nat) :
    unionMerge (a :: as) (b :: bs)
      = if a < b then a :: unionMerge as (b :: bs)
        else if b < a then b :: unionMerge (a :: as) bs
        else b :: unionMerge as bs := by
  rw [unionMerge]

theorem vectorIsSorted_iff :
    ∀ l : List Nat, (vectorIsSorted l = true ↔ l.Chain' (· < ·)) := by
  intro l
  induction l with
  | nil => simp [vectorIsSorted]
  | cons a rest ih =>
    cases rest with
    | nil => simp [vectorIsSorted]
    | cons b rest' =>
      rw [List.chain'_cons]
      unfold vectorIsSorted
      by_cases h : b ≤ a
      · rw [if_pos h]
        constructor
        · intro hc
          exact absurd hc (by simp)
        · intro hc
          exact absurd hc.1 (by omega)
      · rw [if_neg h, ih]
        constructor
        · exact fun hc => ⟨by omega, hc⟩
        · exact fun hc => hc.2

theorem uniqueAdj_cons_head :
    ∀ (n : Nat) (a : Nat) (l : List Nat), l.length ≤ n →
      ∃ t, uniqueAdj (a :: l) = a :: t := by
  intro n
  induction n with
  | zero =>
    intro a l h
    have hl : l = [] := List.eq_nil_of_length_eq_zero (by omega)
    subst hl
    exact ⟨[], uniqueAdj_singleton a⟩
  | succ n ih =>
    intro a l hlen
    cases l with
    | nil => exact ⟨[], uniqueAdj_singleton a⟩
    | cons b rest =>
      by_cases hab : a = b
      · obtain ⟨t, ht⟩ := ih a rest (by simp at hlen; omega)
        refine ⟨t, ?_⟩
        rw [uniqueAdj_cons_cons, if_pos hab]
        exact ht
      · exact ⟨uniqueAdj (b :: rest), by rw [uniqueAdj_cons_cons, if_neg hab]⟩

theorem uniqueAdj_mem :
    ∀ (n : Nat) (l : List Nat), l.length ≤ n →
      ∀ y, (y ∈ uniqueAdj l ↔ y ∈ l) := by
  intro n
  induction n with
  | zero =>
    intro l h y
    have hl : l = [] := List.eq_nil_of_length_eq_zero (by omega)
    subst hl
    rw [uniqueAdj_nil]
  | succ n ih =>
    intro l hlen y
    cases l with
    | nil => rw [uniqueAdj_nil]
    | cons a rest =>
      cases rest with
      | nil => rw [uniqueAdj_singleton]
      | cons b rest' =>
        by_cases hab : a = b
        · rw [uniqueAdj_cons_cons, if_pos hab,
            ih (a :: rest') (by simp at hlen ⊢; omega) y]
          subst hab
          simp
        · rw [uniqueAdj_cons_cons, if_neg hab]
          simp only [List.mem_cons]
          rw [ih (b :: rest') (by simp at hlen ⊢; omega) y]
          simp

theorem uniqueAdj_chain :
    ∀ (n : Nat) (l : List Nat), l.length ≤ n →
      l.Chain' (· ≤ ·) → (uniqueAdj l).Chain' (· < ·) := by
  intro n
  induction n with
  | zero =>
    intro l h _
    have hl : l = [] := List.eq_nil_of_length_eq_zero (by omega)
    subst hl
    rw [uniqueAdj_nil]
    simp
  | succ n ih =>
    intro l hlen hchain
    cases l with
    | nil =>
      rw [uniqueAdj_nil]
      simp
    | cons a rest =>
      cases rest with
      | nil =>
        rw [uniqueAdj_singleton]
        simp
      | cons b rest' =>
        rw [List.chain'_cons] at hchain
        by_cases hab : a = b
        · rw [uniqueAdj_cons_cons, if_pos hab]
          refine ih (a :: rest') (by simp at hlen ⊢; omega) ?_
          subst hab
          exact hchain.2
        · rw [uniqueAdj_cons_cons, if_neg hab]
          obtain ⟨t, ht⟩ := uniqueAdj_cons_head rest'.length b rest' (le_refl _)
          rw [ht, List.chain'_cons]
          have hbt : (uniqueAdj (b :: rest')).Chain' (· < ·) :=
            ih (b :: rest') (by simp at hlen ⊢; omega) hchain.2
          rw [ht] at hbt
          exact ⟨by omega, hbt⟩

theorem fromVector_chain (vec : List Nat) :
    (fromVector vec).Chain' (· < ·) := by
  unfold fromVector
  refine uniqueAdj_chain _ _ (le_refl _) ?_
  exact (List.sorted_insertionSort _ vec).chain'

theorem fromVector_mem (vec : List Nat) (y : Nat) :
    y ∈ fromVector vec ↔ y ∈ vec := by
  unfold fromVector
  rw [uniqueAdj_mem _ _ (le_refl _), List.mem_insertionSort]

theorem unionMerge_mem (l r : List Nat) (y : Nat) :
    y ∈ unionMerge l r ↔ y ∈ l ∨ y ∈ r := by
  induction l, r using unionMerge.induct with
  | case1 rhs => simp [unionMerge_nil_left]
  | case2 lhs h =>
    cases lhs with
    | nil => simp [unionMerge_nil_left]
    | cons a as => simp [unionMerge_cons_nil]
  | case3 a as b bs hlt ih =>
    rw [unionMerge_cons_cons, if_pos hlt]
    simp only [List.mem_cons, ih]
    tauto
  | case4 a as b bs hnlt hlt ih =>
    rw [unionMerge_cons_cons, if_neg hnlt, if_pos hlt]
    simp only [List.mem_cons, ih]
    tauto
  | case5 a as b bs hnlt hnlt2 ih =>
    have hab : a = b := by omega
    rw [unionMerge_cons_cons, if_neg hnlt, if_neg hnlt2]
    simp only [List.mem_cons, ih]
    subst hab
    tauto

/-! ### `insert` and its binary search -/

theorem chain_lt_getD (vec : List Nat) (hs : vec.Chain' (· < ·))
    (i j : Nat) (hij : i < j) (hj : j < vec.length) :
    vec.getD i 0 < vec.getD j 0 := by
  have hp : vec.Pairwise (· < ·) := List.chain'_iff_pairwise.mp hs
  have hi : i < vec.length := by omega
  rw [List.getD_eq_getElem?_getD, List.getD_eq_getElem?_getD,
    List.getElem?_eq_getElem hi, List.getElem?_eq_getElem hj,
    Option.getD_some, Option.getD_some]
  exact List.pairwise_iff_getElem.mp hp i j hi hj hij

theorem insertSearch_spec (vec : List Nat) (x : Nat)
    (hs : vec.Chain' (· < ·)) :
    ∀ (gas first last : Nat), last - first ≤ gas → first ≤ last →
      last ≤ vec.length →
      (∀ idx, idx < first → vec.getD idx 0 < x) →
      (∀ idx, last ≤ idx → idx < vec.length → x < vec.getD idx 0) →
      (insertSearch vec x first last = none → x ∈ vec) ∧
      (∀ pos, insertSearch vec x first last = some pos →
        pos ≤ vec.length ∧ (∀ idx, idx < pos → vec.getD idx 0 < x) ∧
        (∀ idx, pos ≤ idx → idx < vec.length → x < vec.getD idx 0)) := by
  intro gas
  induction gas with
  | zero =>
    intro first last hgas hfl hlast hlow hhigh
    have hfl' : ¬ (first < last) := by omega
    rw [insertSearch, dif_neg hfl']
    refine ⟨fun h => Option.noConfusion h, fun pos hpos => ?_⟩
    cases Option.some.inj hpos
    exact ⟨by omega, fun idx h => hlow idx h,
      fun idx h1 h2 => hhigh idx (by omega) h2⟩
  | succ gas ih =>
    intro first last hgas hfl hlast hlow hhigh
    by_cases hlt : first < last
    · rw [insertSearch, dif_pos hlt]
      have hmid_lt : first + (last - first) / 2 < last := by
        have := Nat.div_lt_self (show 0 < last - first by omega)
          (show 1 < 2 by norm_num)
        omega
      have hmid_len : first + (last - first) / 2 < vec.length := by omega
      by_cases heq : vec.getD (first + (last - first) / 2) 0 = x
      · rw [if_pos heq]
        refine ⟨fun _ => ?_, fun pos hpos => Option.noConfusion hpos⟩
        rw [← heq]
        exact CompactVariableAssignment.getD_mem_of_lt vec _ 0 hmid_len
      · rw [if_neg heq]
        by_cases hltx : vec.getD (first + (last - first) / 2) 0 < x
        · rw [if_pos hltx]
          refine ih (first + (last - first) / 2 + 1) last (by omega) (by omega)
            hlast ?_ hhigh
          intro idx hidx
          rcases Nat.lt_succ_iff_lt_or_eq.mp hidx with h | rfl
          · by_cases hf : idx < first
            · exact hlow idx hf
            · exact lt_trans (chain_lt_getD vec hs idx _ (by omega) hmid_len) hltx
          · exact hltx
        · rw [if_neg hltx]
          refine ih first (first + (last - first) / 2) (by omega) (by omega)
            (by omega) hlow ?_
          intro idx h1 h2
          rcases Nat.eq_or_lt_of_le h1 with rfl | h1
          · omega
          · exact lt_trans (by omega) (chain_lt_getD vec hs _ idx h1 h2)
    · rw [insertSearch, dif_neg hlt]
      refine ⟨fun h => Option.noConfusion h, fun pos hpos => ?_⟩
      cases Option.some.inj hpos
      exact ⟨by omega, fun idx h => hlow idx h,
        fun idx h1 h2 => hhigh idx (by omega) h2⟩

/-- What `insert` guarantees on a sorted vector: the result is sorted, its
elements are those of the vector plus `x`, and when `x` was already
present the vector is returned unchanged. -/
theorem insert_spec (vec : List Nat) (x : Nat) (hs : vec.Chain' (· < ·)) :
    (insert vec x).Chain' (· < ·) ∧
    (x ∈ vec → insert vec x = vec) ∧
    (∀ y, y ∈ insert vec x ↔ y = x ∨ y ∈ vec) := by
  obtain ⟨hnone, hsome⟩ := insertSearch_spec vec x hs vec.length 0 vec.length
    (by omega) (by omega) (le_refl _) (fun idx h => absurd h (by omega))
    (fun idx h1 h2 => absurd h1 (by omega))
  unfold insert
  rcases hres : insertSearch vec x 0 vec.length with _ | pos
  · have hmem : x ∈ vec := hnone hres
    exact ⟨hs, fun _ => rfl, fun y => by
      constructor
      · exact fun h => Or.inr h
      · intro h
        rcases h with rfl | h
        · exact hmem
        · exact h⟩
  · obtain ⟨hpos_len, hlow, hhigh⟩ := hsome pos hres
    have hnotmem : x ∉ vec := by
      intro hmem
      obtain ⟨i, hi, hix⟩ := List.mem_iff_getElem.mp hmem
      have hgetD : vec.getD i 0 = x := by
        rw [List.getD_eq_getElem?_getD, List.getElem?_eq_getElem hi,
          Option.getD_some]
        exact hix
      by_cases hip : i < pos
      · exact absurd hgetD (by have := hlow i hip; omega)
      · exact absurd hgetD (by have := hhigh i (by omega) hi; omega)
    have htake : ∀ a ∈ vec.take pos, a < x := by
      intro a ha
      obtain ⟨i, hi, hia⟩ := List.mem_iff_getElem.mp ha
      have hi' : i < pos := by
        have := hi
        rw [List.length_take] at this
        omega
      have hi'' : i < vec.length := by omega
      have : vec.getD i 0 = a := by
        rw [List.getD_eq_getElem?_getD, List.getElem?_eq_getElem hi'',
          Option.getD_some, ← List.getElem_take]
        exact hia
      have := hlow i hi'
      omega
    have hdrop : ∀ a ∈ vec.drop pos, x < a := by
      intro a ha
      obtain ⟨i, hi, hia⟩ := List.mem_iff_getElem.mp ha
      have hi' : pos + i < vec.length := by
        have := hi
        rw [List.length_drop] at this
        omega
      have : vec.getD (pos + i) 0 = a := by
        rw [List.getD_eq_getElem?_getD, List.getElem?_eq_getElem hi',
          Option.getD_some, ← List.getElem_drop]
        exact hia
      have := hhigh (pos + i) (by omega) hi'
      omega
    have hpair : vec.Pairwise (· < ·) := List.chain'_iff_pairwise.mp hs
    refine ⟨?_, fun hmem => absurd hmem hnotmem, ?_⟩
    · rw [List.chain'_iff_pairwise, List.pairwise_append]
      refine ⟨hpair.sublist (List.take_sublist pos vec), ?_, ?_⟩
      · rw [List.pairwise_cons]
        exact ⟨hdrop, hpair.sublist (List.drop_sublist pos vec)⟩
      · intro a ha b hb
        rcases List.mem_cons.mp hb with rfl | hb
        · exact htake a ha
        · exact lt_trans (htake a ha) (hdrop b hb)
    · intro y
      have hsplit : y ∈ vec ↔ y ∈ vec.take pos ∨ y ∈ vec.drop pos := by
        conv_lhs => rw [← List.take_append_drop pos vec]
        exact List.mem_append
      rw [List.mem_append, List.mem_cons, hsplit]
      tauto

/-- `Erase` keeps the vector sorted. -/
theorem Erase_chain (vec : List Nat) (position : Nat)
    (hs : vec.Chain' (· < ·)) : (Erase vec position).Chain' (· < ·) := by
  rw [List.chain'_iff_pairwise] at hs ⊢
  exact hs.sublist (List.eraseIdx_sublist vec position)

end OrderedVector

/-! ## Claim theorems -/

namespace CompactVariableAssignment

/-- C1: in the `CompactVariableAssignment(size_t n)` constructor the
condition parses as `n & ((1 << i) != 0)`, so every variable is set to
`ONE` when `n` is odd and to `ZERO` when `n` is even — independently of
`i` (second conjunct: for `n = 2`, whose bit 1 is set, variable 1 is
nevertheless `ZERO`). -/
theorem C1_size_constructor_oddness :
    (∀ (VariablesCount n i : Nat), i < VariablesCount →
      ∃ vs, constructFromSize VariablesCount n = .ok vs ∧
        GetIthVariableValue vs i = (if n % 2 = 1 then ONE else ZERO)) ∧
    (∃ vs, constructFromSize 2 2 = .ok vs ∧
      GetIthVariableValue vs 1 = ZERO ∧ Nat.testBit 2 1 = true) := by
  have hmain : ∀ (VariablesCount n i : Nat), i < VariablesCount →
      ∃ vs, constructFromSize VariablesCount n = .ok vs ∧
        GetIthVariableValue vs i = (if n % 2 = 1 then ONE else ZERO) := by
    intro vc n i hi
    obtain ⟨vs, hok, _, hval⟩ := constructFromSize_spec vc n
    exact ⟨vs, hok, hval i hi⟩
  refine ⟨hmain, ?_⟩
  obtain ⟨vs, hok, hval⟩ := hmain 2 2 1 (by omega)
  exact ⟨vs, hok, by simpa using hval, by decide⟩

/-- Witness for C1 at a concrete input. -/
theorem C1_size_constructor_oddness_witness :
    ∃ vs, constructFromSize 2 3 = .ok vs ∧
      GetIthVariableValue vs 1 = (if 3 % 2 = 1 then ONE else ZERO) :=
  C1_size_constructor_oddness.1 2 3 1 (by decide)

/-- C3 counterexample: with one variable, the assignment `X` is
`operator<`-below the assignment `1`, yet its textual form `"X"` is not
lexicographically smaller than `"1"` when `X` ranks above `1`; and with
two variables, `"10"` is `operator<`-below `"01"` although it is not
lexicographically smaller read from index 0 — so `operator<` is not the
claimed order. -/
theorem C3_lessThan_counterexample :
    (lessThan 1 [3] [2] = .ok true ∧
      constructFromString ['X'] = .ok [3] ∧
      constructFromString ['1'] = .ok [2] ∧
      ToString 1 [3] = .ok ['X'] ∧
      ToString 1 [2] = .ok ['1'] ∧
      lexLtBy charRankSpec ['X'] ['1'] = false) ∧
    (lessThan 2 [6] [9] = .ok true ∧
      ToString 2 [6] = .ok ['1', '0'] ∧
      ToString 2 [9] = .ok ['0', '1'] ∧
      lexLtBy charRankSpec ['1', '0'] ['0', '1'] = false) := by
  decide

/-- C3 (amended): `operator<` compares the textual forms read in
*reverse* variable-index order (highest index first), under the
character order `'0' < 'X' < '1'`. -/
theorem C3_lessThan_reverse_lex (n : Nat) (lhs rhs : List Nat)
    (sl sr : List Char)
    (hval : ∀ j, j < n →
      IsValidValue (GetIthVariableValue lhs j) ∧
      IsValidValue (GetIthVariableValue rhs j))
    (hsl : ToString n lhs = .ok sl) (hsr : ToString n rhs = .ok sr) :
    lessThan n lhs rhs = .ok (lexLtBy charRankCode sl.reverse sr.reverse) := by
  have hl : sl = (List.range n).map (fun i => valChar (GetIthVariableValue lhs i)) := by
    have := ToString_spec n lhs (fun i hi => (hval i hi).1)
    rw [this] at hsl
    exact (Except.ok.inj hsl).symm
  have hr : sr = (List.range n).map (fun i => valChar (GetIthVariableValue rhs i)) := by
    have := ToString_spec n rhs (fun i hi => (hval i hi).2)
    rw [this] at hsr
    exact (Except.ok.inj hsr).symm
  rw [hl, hr]
  exact ltAux_lex lhs rhs n hval

/-- Witness for the amended C3 at a concrete input. -/
theorem C3_lessThan_reverse_lex_witness :
    lessThan 2 [11] [14] = .ok (lexLtBy charRankCode
      ['X', '1'].reverse ['1', 'X'].reverse) :=
  C3_lessThan_reverse_lex 2 [11] [14] ['X', '1'] ['1', 'X']
    (by decide) (by decide) (by decide)

/-- C4: the string constructor and `ToString` are mutually inverse on
strings over `{'0','1','X'}` of the right length, and the constructor
throws `"Invalid input value!"` on any string containing another
character. -/
theorem C4_string_roundtrip :
    (∀ s : List Char, (∀ c ∈ s, IsValidChar c) →
      ∃ vs, constructFromString s = .ok vs ∧ ToString s.length vs = .ok s) ∧
    (∀ s : List Char, (∃ c ∈ s, ¬ IsValidChar c) →
      constructFromString s = .error "Invalid input value!") :=
  ⟨constructFromString_ToString,
   fun s h => constructFromStringAux_invalid s _ 0 h⟩

/-- Witness for C4 at a concrete input. -/
theorem C4_string_roundtrip_witness :
    (∃ vs, constructFromString ['0', '1', 'X'] = .ok vs ∧
      ToString (['0', '1', 'X'] : List Char).length vs = .ok ['0', '1', 'X']) ∧
    constructFromString ['0', '2'] = .error "Invalid input value!" :=
  ⟨C4_string_roundtrip.1 ['0', '1', 'X'] (by decide),
   C4_string_roundtrip.2 ['0', '2'] (by decide)⟩

/-- C5: `operator<` is irreflexive and transitive on all assignments, and
on three-valued assignments that differ at some index exactly one
direction compares `true`. -/
theorem C5_strict_total_order :
    (∀ (n : Nat) (a : List Nat), lessThan n a a ≠ .ok true) ∧
    (∀ (n : Nat) (a b c : List Nat), lessThan n a b = .ok true →
      lessThan n b c = .ok true → lessThan n a c = .ok true) ∧
    (∀ (n : Nat) (a b : List Nat),
      (∀ j, j < n → IsValidValue (GetIthVariableValue a j) ∧
        IsValidValue (GetIthVariableValue b j)) →
      (∃ j, j < n ∧ GetIthVariableValue a j ≠ GetIthVariableValue b j) →
      (lessThan n a b = .ok true ∧ ¬ lessThan n b a = .ok true) ∨
      (lessThan n b a = .ok true ∧ ¬ lessThan n a b = .ok true)) := by
  refine ⟨fun n a => ltAux_irrefl a n,
    fun n a b c => ltAux_trans a b c n, fun n a b hval hex => ?_⟩
  rcases ltAux_total a b n hval hex with h | h
  · refine Or.inl ⟨h, ?_⟩
    have hflip := ltAux_asym a b n h
    intro hcon
    unfold lessThan at hcon
    rw [hcon] at hflip
    exact absurd (Except.ok.inj hflip) (by simp)
  · refine Or.inr ⟨h, ?_⟩
    have hflip := ltAux_asym b a n h
    intro hcon
    unfold lessThan at hcon
    rw [hcon] at hflip
    exact absurd (Except.ok.inj hflip) (by simp)

/-- Witness for C5 at a concrete input. -/
theorem C5_strict_total_order_witness :
    (lessThan 1 [1] [2] = .ok true ∧ ¬ lessThan 1 [2] [1] = .ok true) ∨
    (lessThan 1 [2] [1] = .ok true ∧ ¬ lessThan 1 [1] [2] = .ok true) :=
  C5_strict_total_order.2.2 1 [1] [2] (by decide) (by decide)

/-- C6: every constructor yields a three-valued assignment,
`SetIthVariableValue` rejects values outside `{ZERO, ONE, DONT_CARE}` and
keeps the domain on valid values, and `operator++` keeps the domain. -/
theorem C6_three_valued_invariant :
    (∀ n, ∃ vs, construct n = .ok vs ∧ ThreeValued n vs) ∧
    (∀ vc n, ∃ vs, constructFromSize vc n = .ok vs ∧ ThreeValued vc vs) ∧
    (∀ (s : List Char) (vs : List Nat), constructFromString s = .ok vs →
      ThreeValued s.length vs) ∧
    (∀ (vars_ : List Nat) (i v : Nat), ¬ IsValidValue v →
      SetIthVariableValue vars_ i v = .error "Invalid input value!") ∧
    (∀ (n : Nat) (vars_ : List Nat) (i v : Nat),
      vars_.length = NumberOfChars n → i < n → IsValidValue v →
      ThreeValued n vars_ → ThreeValued n (setBits vars_ i v)) ∧
    (∀ (n : Nat) (vars_ vs : List Nat), vars_.length = NumberOfChars n →
      ThreeValued n vars_ → increment n vars_ = .ok vs →
      ThreeValued n vs) := by
  refine ⟨?_, ?_, ?_, ?_, ?_, ?_⟩
  · intro n
    obtain ⟨vs, hok, _, hval⟩ := construct_spec n
    exact ⟨vs, hok, fun i hi => by
      rw [hval i hi]
      exact Or.inr (Or.inr rfl)⟩
  · intro vc n
    obtain ⟨vs, hok, _, hval⟩ := constructFromSize_spec vc n
    refine ⟨vs, hok, fun i hi => ?_⟩
    rw [hval i hi]
    by_cases h : n % 2 = 1
    · rw [if_pos h]
      exact Or.inr (Or.inl rfl)
    · rw [if_neg h]
      exact Or.inl rfl
  · intro s vs hok
    have hchars := constructFromStringAux_ok_valid s _ 0 vs hok
    obtain ⟨vs', hok', _, hval⟩ := constructFromString_spec s hchars
    rw [hok] at hok'
    cases Except.ok.inj hok'
    intro i hi
    rw [hval i hi]
    exact charVal_valid _
  · exact SetIthVariableValue_invalid
  · intro n vars_ i v hlen hi hv h3 j hj
    by_cases hij : j = i
    · subst hij
      rw [GetIthVariableValue_setBits_same vars_ j v
        (by rw [hlen]; exact getIndexOfChar_lt j n hj) hv.lt_four]
      exact hv
    · rw [GetIthVariableValue_setBits_ne vars_ i j v hij hv.lt_four]
      exact h3 j hj
  · intro n vars_ vs hlen h3 hok
    obtain ⟨_, hcases⟩ := incrementAux_preserves n vars_ 0 vs
      (fun j h1 h2 => by rw [hlen]; exact getIndexOfChar_lt j n (by omega)) hok
    intro i hi
    rcases hcases i with h | h | h
    · rw [h]
      exact h3 i hi
    · rw [h]
      exact Or.inl rfl
    · rw [h]
      exact Or.inr (Or.inl rfl)

/-- Witness for C6 at a concrete input. -/
theorem C6_three_valued_invariant_witness :
    ThreeValued 4 (setBits [255] 2 1) :=
  C6_three_valued_invariant.2.2.2.2.1 4 [255] 2 1 (by decide) (by decide)
    (by decide) (by decide)

/-- C8: on a valid value, `SetIthVariableValue` succeeds, the written
variable reads back, and every other variable is unchanged. -/
theorem C8_set_get_frame (n : Nat) (vars_ : List Nat) (i v : Nat)
    (hlen : vars_.length = NumberOfChars n) (hi : i < n)
    (hv : IsValidValue v) :
    SetIthVariableValue vars_ i v = .ok (setBits vars_ i v) ∧
    GetIthVariableValue (setBits vars_ i v) i = v ∧
    (∀ j, j < n → j ≠ i →
      GetIthVariableValue (setBits vars_ i v) j = GetIthVariableValue vars_ j) := by
  refine ⟨SetIthVariableValue_valid vars_ i v hv, ?_, ?_⟩
  · exact GetIthVariableValue_setBits_same vars_ i v
      (by rw [hlen]; exact getIndexOfChar_lt i n hi) hv.lt_four
  · intro j _ hj
    exact GetIthVariableValue_setBits_ne vars_ i j v hj hv.lt_four

/-- Witness for C8 at a concrete input. -/
theorem C8_set_get_frame_witness :
    SetIthVariableValue [170] 1 1 = .ok (setBits [170] 1 1) ∧
    GetIthVariableValue (setBits [170] 1 1) 1 = 1 ∧
    (∀ j, j < 4 → j ≠ 1 →
      GetIthVariableValue (setBits [170] 1 1) j = GetIthVariableValue [170] j) :=
  C8_set_get_frame 4 [170] 1 1 (by decide) (by decide) (by decide)

/-- C9: on an all-`ZERO`/`ONE` assignment, `operator++` increments the
encoded number modulo `2 ^ VariablesCount`; if the upward scan meets a
variable that is neither `ZERO` nor `ONE` before meeting a `ZERO`, it
throws. -/
theorem C9_increment (n : Nat) (vars_ : List Nat)
    (hlen : vars_.length = NumberOfChars n) :
    ((∀ j, j < n → GetIthVariableValue vars_ j = ZERO ∨
        GetIthVariableValue vars_ j = ONE) →
      ∃ vs, increment n vars_ = .ok vs ∧
        (∀ j, j < n → GetIthVariableValue vs j = ZERO ∨
          GetIthVariableValue vs j = ONE) ∧
        encode n vs = (encode n vars_ + 1) % 2 ^ n) ∧
    (∀ j, j < n → (∀ k, k < j → GetIthVariableValue vars_ k = ONE) →
      ¬(GetIthVariableValue vars_ j = ZERO ∨ GetIthVariableValue vars_ j = ONE) →
      increment n vars_
        = .error "An attempt to increment assignment with invalid states") := by
  constructor
  · intro hval
    obtain ⟨vs, hok, _, _, hwin, henc⟩ := incrementAux_spec n vars_ 0
      (fun j h1 h2 => by rw [hlen]; exact getIndexOfChar_lt j n (by omega))
      (fun j h1 h2 => hval j (by omega))
    refine ⟨vs, hok, fun j hj => hwin j (by omega) (by omega), ?_⟩
    rw [encode_eq_encodeFrom, encode_eq_encodeFrom, henc]
  · intro j hj hones hbad
    exact incrementAux_invalid n vars_ 0 j (by omega) (by omega)
      (fun k _ hk => hones k hk) hbad

/-- Witness for C9 at a concrete input. -/
theorem C9_increment_witness :
    ∃ vs, increment 2 [6] = .ok vs ∧
      (∀ j, j < 2 → GetIthVariableValue vs j = ZERO ∨
        GetIthVariableValue vs j = ONE) ∧
      encode 2 vs = (encode 2 [6] + 1) % 2 ^ 2 :=
  (C9_increment 2 [6] (by decide)).1 (by decide)

end CompactVariableAssignment

namespace SpecMTBDD

/-- C2: writing a value `v ≠ v⊥` at a don't-care-free assignment on a
fresh root and reading it back at the same assignment yields the leaf
container `[v]`.  (Modelled from the spec; see the module comment of
`SpecMTBDD`.) -/
theorem C2_set_get_roundtrip {V : Type} [DecidableEq V]
    (background v : V) (a : List VarValue)
    (hnd : ∀ x ∈ a, x ≠ VarValue.dontCare) (hv : v ≠ background) :
    GetValue (SetValue (CreateRoot V background) a v) a = [v] := by
  unfold GetValue
  rw [completions_no_dontCare a hnd]
  have hcons : SetValue (CreateRoot V background) a v (onlyCompletion a) = v := by
    unfold SetValue
    rw [if_pos (consistentB_onlyCompletion a)]
  rw [List.map_singleton, hcons]
  simp

/-- Witness for C2 at a concrete input. -/
theorem C2_set_get_roundtrip_witness :
    GetValue (SetValue (CreateRoot Nat 0) [VarValue.one, VarValue.zero] 7)
      [VarValue.one, VarValue.zero] = [7] :=
  C2_set_get_roundtrip 0 7 [VarValue.one, VarValue.zero]
    (by decide) (by decide)

end SpecMTBDD

namespace FakeFile

/-- C7: if the file has been opened and not closed and the `fclose`
performed during destruction fails, the destructor throws
`"Could not close file"`. -/
theorem C7_destructor_throws (s : State)
    (hopen : s.hasBeenOpened_ = true) (hclosed : s.isClosed_ = false) :
    destructor s true = .error "Could not close file" := by
  unfold destructor
  rw [hopen, hclosed]
  rfl

/-- Witness for C7 at a concrete input. -/
theorem C7_destructor_throws_witness :
    destructor ⟨true, false, true, false⟩ true
      = .error "Could not close file" :=
  C7_destructor_throws ⟨true, false, true, false⟩ rfl rfl

end FakeFile

namespace OrderedVector

/-- C10: every `OrderedVector` produced by the default constructor, the
constructor from an arbitrary vector, `insert`, `Union`, `Erase` or
`clear` is strictly sorted (so duplicate-free); `insert` of a present
element leaves the vector unchanged; `Union` holds exactly the set union
of the elements. -/
theorem C10_ordered_vector :
    (vectorIsSorted ([] : List Nat) = true) ∧
    (∀ vec : List Nat, vectorIsSorted (fromVector vec) = true) ∧
    (∀ (vec : List Nat) (x : Nat), vectorIsSorted vec = true →
      vectorIsSorted (insert vec x) = true ∧ (x ∈ vec → insert vec x = vec)) ∧
    (∀ vec : List Nat, vectorIsSorted (clear vec) = true) ∧
    (∀ (vec : List Nat) (p : Nat), vectorIsSorted vec = true →
      vectorIsSorted (Erase vec p) = true) ∧
    (∀ lhs rhs : List Nat, vectorIsSorted (Union lhs rhs) = true ∧
      ∀ y, (y ∈ Union lhs rhs ↔ y ∈ lhs ∨ y ∈ rhs)) := by
  refine ⟨rfl, ?_, ?_, ?_, ?_, ?_⟩
  · intro vec
    rw [vectorIsSorted_iff]
    exact fromVector_chain vec
  · intro vec x hs
    rw [vectorIsSorted_iff] at hs
    obtain ⟨h1, h2, _⟩ := insert_spec vec x hs
    exact ⟨(vectorIsSorted_iff _).mpr h1, h2⟩
  · intro vec
    rfl
  · intro vec p hs
    rw [vectorIsSorted_iff] at hs ⊢
    exact Erase_chain vec p hs
  · intro lhs rhs
    refine ⟨(vectorIsSorted_iff _).mpr (fromVector_chain _), fun y => ?_⟩
    unfold Union
    rw [fromVector_mem, unionMerge_mem]

/-- Witness for C10 at a concrete input. -/
theorem C10_ordered_vector_witness :
    vectorIsSorted (insert [1, 3] 2) = true ∧
    (2 ∈ [1, 3] → insert [1, 3] 2 = [1, 3]) :=
  C10_ordered_vector.2.2.1 [1, 3] 2 (by decide)

end OrderedVector
end SFTA
